import Mathlib

/-!
A shallow embedding of the chunked-review orchestration tool "reviewer":
the chunker (`ChunkDiff` / `GetFileChunks`), the retry controller
(`retryWithBackoff`), the backend-client variants (`ReviewChunkOpenAI`,
`GenerateUnitTestsOpenAI`, `lmstudioChat`, `lmstudioChatTest`), the test
artifact writer (`ParseAndWriteTests`), the review orchestrator
(`ReviewAndFixLoop`) and the resume-mode index filter from `main`.

Go strings are traversed through their character lists.  External effects
(HTTP calls, the clock, the file system, the test runner, the interrupt
signal, context cancellation) enter the model as explicit oracles: a
function giving the outcome of the n-th occurrence of the effect.
-/

namespace Reviewer

/-! ## String primitives (Go `strings.Split`, `strings.Join`, `strings.Index`,
`strings.Contains` specialized as the source uses them) -/

/-- The newline character: the separator of `strings.Split(s, "\x5Cn")` and
`strings.Join(xs, "\x5Cn")` in `ChunkDiff` and `GetFileChunks`. -/
def newline : Char := Char.ofNat 10

/-- Go `strings.Split(s, "\x5Cn")` on the character list of `s`.  As in Go, the
result always has one more element than the number of newlines; in particular
the empty string splits into the one-element list `[[]]`. -/
def splitLines : List Char → List (List Char)
  | [] => [[]]
  | c :: cs =>
    if c = newline then [] :: splitLines cs
    else
      match splitLines cs with
      | [] => [[c]]
      | l :: ls => (c :: l) :: ls

/-- Go `strings.Join(xs, "\x5Cn")` on character lists. -/
def joinNl : List (List Char) → List Char
  | [] => []
  | [l] => l
  | l :: l2 :: ls => l ++ newline :: joinNl (l2 :: ls)

/-- The number of lines of a string in the sense of the source: the length of
its newline-split, i.e. number of newlines plus one (the empty string has one
empty line). -/
def lineCount (s : String) : Nat := (splitLines s.data).length

/-- Go `strings.Index(s, pat)`: index of the first occurrence of `pat` in `s`,
`none` for Go's `-1`. -/
def strIndex (pat : List Char) : List Char → Option Nat
  | [] => if pat = [] then some 0 else none
  | c :: cs =>
    if pat.isPrefixOf (c :: cs) then some 0
    else (strIndex pat cs).map (· + 1)

/-- Go `strings.Contains(s, sub)`. -/
def goContains (s sub : String) : Bool := (strIndex sub.data s.data).isSome

/-- Go `strings.Join(chunks, "\x5Cn")` on whole strings: the joining operation
that reassembles a chunk sequence. -/
def joinChunks (cs : List String) : String := String.mk (joinNl (cs.map String.data))

/-! ## Chunker (`ChunkDiff`, `GetFileChunks` in the source)

Both functions run the loop `for i := 0; i < len(lines); i += chunkSize`,
slicing `lines[i:min(i+chunkSize, len)]`.  `chunkLoop` is that loop; the
`fuel` argument bounds the number of iterations and is a modelling artifact:
any fuel at least `lines.length` is enough when `chunkSize ≥ 1` (with
`chunkSize = 0` the Go loop would never terminate, and the tool never calls
it that way). -/

/-- The slicing loop shared by `ChunkDiff`, `GetFileChunks` and
`GetProjectChunks`: split a list into consecutive groups of `chunkSize`
elements, last group possibly shorter. -/
def chunkLoop {α : Type} (chunkSize : Nat) : Nat → List α → List (List α)
  | _, [] => []
  | 0, _ :: _ => []
  | fuel + 1, x :: xs =>
    (x :: xs).take chunkSize :: chunkLoop chunkSize fuel ((x :: xs).drop chunkSize)

/-- `ChunkDiff(diff, chunkSize)`: split the body into lines, group the lines
into windows of `chunkSize`, and join each window back with newlines. -/
def ChunkDiff (diff : String) (chunkSize : Nat) : List String :=
  let lines := splitLines diff.data
  (chunkLoop chunkSize lines.length lines).map (fun c => String.mk (joinNl c))

/-- `GetFileChunks(path, chunkSize)` after a successful `os.ReadFile`: the
loop body is character-for-character the one in `ChunkDiff`, applied to the
file contents (the read-error path returns the error unchanged and is not
modelled). -/
def GetFileChunks (data : String) (chunkSize : Nat) : List String :=
  let lines := splitLines data.data
  (chunkLoop chunkSize lines.length lines).map (fun c => String.mk (joinNl c))

/-! ## Retry controller (`retryWithBackoff` in the source)

The operation `fn` is a closure in Go; its captured variables are modelled as
a state `σ` threaded through the attempts.  `fn i s` is the outcome of the
i-th invocation (`none` = Go `nil` error).  `ctxDone i` says whether the
context is already done (deadline elapsed or canceled) when the i-th
`select` waits on the backoff timer, in which case the `ctx.Done()` branch
fires and `ctx.Err()` (modelled as `ctxErr`) is returned.  `waits` records
the durations (in seconds, initial backoff `time.Second = 1`, doubled after
each attempt) of the backoff waits that ran to completion. -/

structure RetryOut (σ : Type) where
  res : Option String
  state : σ
  attempts : Nat
  waits : List Nat

/-- The loop `for i := 0; i < maxRetries; i++` of `retryWithBackoff`:
`n` is the number of iterations left, `i` the attempt number, `backoff` the
current backoff duration, `lastErr` the value of the `err` variable. -/
def retryLoop {σ : Type} (fn : Nat → σ → Option String × σ) (ctxDone : Nat → Bool)
    (ctxErr : String) : Nat → Nat → Nat → Option String → σ → RetryOut σ
  | 0, _, _, lastErr, s => ⟨lastErr, s, 0, []⟩
  | n + 1, i, backoff, _, s =>
    match fn i s with
    | (none, s2) => ⟨none, s2, 1, []⟩
    | (some e, s2) =>
      if ctxDone i then ⟨some ctxErr, s2, 1, []⟩
      else
        let r := retryLoop fn ctxDone ctxErr n (i + 1) (backoff * 2) (some e) s2
        ⟨r.res, r.state, r.attempts + 1, backoff :: r.waits⟩

/-- `retryWithBackoff(ctx, maxRetries, fn)`: run the retry loop starting at
attempt 0 with `backoff = time.Second` and `err = nil`. -/
def retryWithBackoff {σ : Type} (ctxDone : Nat → Bool) (ctxErr : String)
    (maxRetries : Nat) (fn : Nat → σ → Option String × σ) (s0 : σ) : RetryOut σ :=
  retryLoop fn ctxDone ctxErr maxRetries 0 1 none s0

/-! ## Backend client

A chat response carries a list of choices; a call either fails (transport
error, request-building or JSON error, non-200 status — all collapsed into
the error string Go would return) or succeeds with a decoded response. -/

structure Choice where
  content : String
deriving DecidableEq

structure ChatResponse where
  choices : List Choice
deriving DecidableEq

inductive CallResult where
  | failure (e : String)
  | success (resp : ChatResponse)
deriving DecidableEq

/-- The `provider == "openai"` branch of `ReviewChunk`: one
`CreateChatCompletion` call; a response with zero choices yields the
non-error result `"No response from LLM"`. -/
def ReviewChunkOpenAI (call : CallResult) : String × Option String :=
  match call with
  | .failure e => ("", some e)
  | .success resp =>
    match resp.choices with
    | [] => ("No response from LLM", none)
    | c :: _ => (c.content, none)

/-- The `provider == "openai"` branch of `GenerateUnitTests`; identical
response handling to `ReviewChunkOpenAI` (only the request prompt differs,
which the model does not inspect). -/
def GenerateUnitTestsOpenAI (call : CallResult) : String × Option String :=
  match call with
  | .failure e => ("", some e)
  | .success resp =>
    match resp.choices with
    | [] => ("No response from LLM", none)
    | c :: _ => (c.content, none)

/-- `lmstudioChatTest`: the LM Studio test-generation call (no retry);
zero choices yields the non-error result `"No response from LLM"`. -/
def lmstudioChatTest (call : CallResult) : String × Option String :=
  match call with
  | .failure e => ("", some e)
  | .success resp =>
    match resp.choices with
    | [] => ("No response from LLM", none)
    | c :: _ => (c.content, none)

/-- The variables captured by the closure passed to `retryWithBackoff` in
`lmstudioChat`: `var result string; var lastErr error`. -/
structure LMState where
  lastErr : Option String
  result : String

/-- The closure body in `lmstudioChat`: `responses i` is the outcome of the
HTTP exchange of the i-th attempt.  A zero-choice response sets
`lastErr = "No response from LLM"` and returns it as an error (unlike the
other three request paths). -/
def lmstudioFn (responses : Nat → CallResult) (i : Nat) (s : LMState) :
    Option String × LMState :=
  match responses i with
  | .failure e => (some e, { s with lastErr := some e })
  | .success resp =>
    match resp.choices with
    | [] => (some "No response from LLM", { s with lastErr := some "No response from LLM" })
    | c :: _ => (none, { s with result := c.content })

/-- `lmstudioChat`: wrap the closure in `retryWithBackoff(ctx, 3, ...)` (the
orchestrator always passes 3; left as a parameter here) and on failure return
`("", lastErr)`, on success `(result, nil)`. -/
def lmstudioChat (responses : Nat → CallResult) (ctxDone : Nat → Bool)
    (ctxErr : String) (maxRetries : Nat) : String × Option String :=
  let out := retryWithBackoff ctxDone ctxErr maxRetries (lmstudioFn responses) ⟨none, ""⟩
  match out.res with
  | some _ => ("", out.state.lastErr)
  | none => (out.state.result, none)

/-! ## Test artifact manager (`ParseAndWriteTests`)

The scan looks for a ``` fence, then a closing fence, writes the enclosed
block and continues after the closing fence.  Oracles: `now n` is
`time.Now().UnixNano()` when the n-th block of this call is written,
`writeErr n` the outcome of `os.WriteFile` for the n-th block.  The `fuel`
of `parseLoop` bounds the iterations; each iteration strictly shortens the
remaining text, so any fuel at least the text length is enough. -/

/-- The backquote character (the fence delimiter is three of these). -/
def backquote : Char := Char.ofNat 96

/-- The fence delimiter ``` searched for by `ParseAndWriteTests`. -/
def fence : List Char := [backquote, backquote, backquote]

/-- The `switch lang` naming convention of `ParseAndWriteTests`:
`filepath.Join(dir, fmt.Sprintf(...))` (modelled as concatenation with a
path separator); `none` for a language with no registered convention. -/
def fileNameFor (lang dir : String) (chunkIdx blockNum ts : Nat) : Option String :=
  if lang = "go" then
    some (dir ++ "/llm_generated_test_" ++ toString chunkIdx ++ "_" ++
      toString blockNum ++ "_" ++ toString ts ++ ".go")
  else if lang = "php" then
    some (dir ++ "/LLMGeneratedTest_" ++ toString chunkIdx ++ "_" ++
      toString blockNum ++ "_" ++ toString ts ++ ".php")
  else none

/-- The scanning loop of `ParseAndWriteTests` over the remaining text `s`
(the suffix `testGen[start:]`).  Returns the `files` slice (names written so
far) and `none` when the loop exits by `break` (no further fence pair), or
`some e` for an early `return files, err`. -/
def parseLoop (lang dir : String) (chunkIdx : Nat) (now : Nat → Nat)
    (writeErr : Nat → Option String) :
    Nat → Nat → List Char → List String → List String × Option String
  | 0, _, _, files => (files, none)
  | fuel + 1, blockNum, s, files =>
    match strIndex fence s with
    | none => (files, none)
    | some i1 =>
      let t := s.drop (i1 + 3)
      match strIndex fence t with
      | none => (files, none)
      | some i2 =>
        match fileNameFor lang dir chunkIdx blockNum (now blockNum) with
        | none => (files, some ("test writing not supported for language: " ++ lang))
        | some filename =>
          match writeErr blockNum with
          | some e => (files, some e)
          | none =>
            parseLoop lang dir chunkIdx now writeErr fuel (blockNum + 1)
              (t.drop (i2 + 3)) (files ++ [filename])

/-- `ParseAndWriteTests(testGen, lang, dir, chunkIdx)`: run the scan; if the
loop finished with zero files written, fail with the "no code blocks" error. -/
def ParseAndWriteTests (testGen lang dir : String) (chunkIdx : Nat)
    (now : Nat → Nat) (writeErr : Nat → Option String) : List String × Option String :=
  match parseLoop lang dir chunkIdx now writeErr testGen.data.length 0 testGen.data [] with
  | (files, some e) => (files, some e)
  | (files, none) =>
    if files = [] then (files, some "no code blocks found in LLM test output")
    else (files, none)

/-- The pure block scan underlying `ParseAndWriteTests`: the code blocks the
loop would visit, in order.  Same fence search as `parseLoop`. -/
def extractBlocks : Nat → List Char → List (List Char)
  | 0, _ => []
  | fuel + 1, s =>
    match strIndex fence s with
    | none => []
    | some i1 =>
      let t := s.drop (i1 + 3)
      match strIndex fence t with
      | none => []
      | some i2 => t.take i2 :: extractBlocks fuel (t.drop (i2 + 3))

/-- The fenced code blocks of a model output string. -/
def extractBlocksOf (s : String) : List (List Char) := extractBlocks s.data.length s.data

/-- Whether the scan of `ParseAndWriteTests` finds at least one complete
fenced code block: an opening fence with a closing fence after it. -/
def hasCodeBlock (s : List Char) : Bool :=
  match strIndex fence s with
  | none => false
  | some i1 => (strIndex fence (s.drop (i1 + 3))).isSome

/-! ## Review orchestrator (`ReviewAndFixLoop`)

Backend outcomes enter as oracles per chunk index: `reviewAtt i r` is the
`(review, err)` pair of attempt `r` of the review of chunk `i` (the
per-attempt `context.WithTimeout` and the 2-second sleep between attempts
are inside the oracle), likewise `testAtt` for test generation.
`interrupted i` is the SIGINT flag as sampled before dequeuing chunk `i`;
`now i`/`writeErr i` are the artifact oracles of chunk `i`'s
`ParseAndWriteTests` call and `runTestsErr i` the exit status of `RunTests`
for chunk `i` (`none` = tests passed). -/

structure FailedChunk where
  index : Nat
  error : String
deriving DecidableEq

structure LoopState where
  failedChunks : List FailedChunk
  timeoutCount : Nat
  warnings : Nat
  totalTests : Nat
  testsPassed : Nat
  testsFailed : Nat
  writtenFiles : List String
deriving DecidableEq

/-- The substring that classifies an error as a chunk timeout. -/
def timeoutMsg : String := "context deadline exceeded"

/-- The orchestrator-level retry loop
`for retries = 0; retries < maxRetries; retries++ { x, err = call(); if err == nil break }`:
`prev` is the value of the `(x, err)` variables when the loop is entered
(they survive if the loop body never runs, i.e. `maxRetries = 0`). -/
def attemptLoop (att : Nat → String × Option String) :
    Nat → Nat → String × Option String → String × Option String
  | 0, _, prev => prev
  | n + 1, r, _ =>
    match att r with
    | (txt, none) => (txt, none)
    | (txt, some e) => attemptLoop att n (r + 1) (txt, some e)

structure RunEnv where
  reviewAtt : Nat → Nat → String × Option String
  testAtt : Nat → Nat → String × Option String
  interrupted : Nat → Bool
  now : Nat → Nat → Nat
  writeErr : Nat → Nat → Option String
  runTestsErr : Nat → Option String

/-- The test-generation and artifact-writing part of one iteration of
`ReviewAndFixLoop` (entered when the review part did not `continue`), with
`prevErr` the value the shared `err` variable still has from the review
phase. -/
def testPhase (env : RunEnv) (writeTests : Bool) (lang dir : String)
    (maxRetries : Nat) (i : Nat) (st : LoopState) (prevErr : Option String) : LoopState :=
  let tg := attemptLoop (env.testAtt i) maxRetries 0 ("", prevErr)
  match tg.2 with
  | some e =>
    if goContains e timeoutMsg then
      { st with timeoutCount := st.timeoutCount + 1,
                warnings := if 3 ≤ st.timeoutCount + 1 then st.warnings + 1 else st.warnings }
    else { st with timeoutCount := 0 }
  | none =>
    if writeTests then
      let st1 := { st with timeoutCount := 0 }
      match ParseAndWriteTests tg.1 lang dir i (env.now i) (env.writeErr i) with
      | (_, some _) => st1
      | (files, none) =>
        let st2 := { st1 with writtenFiles := st1.writtenFiles ++ files,
                              totalTests := st1.totalTests + files.length }
        match env.runTestsErr i with
        | some _ => { st2 with testsFailed := st2.testsFailed + files.length }
        | none => { st2 with testsPassed := st2.testsPassed + files.length }
    else st

/-- One iteration of the chunk loop of `ReviewAndFixLoop` for chunk `i`:
review retries, the timeout classification (a failed-chunk record is
appended only in the deadline-exceeded branch, which `continue`s; a
non-timeout review error resets the counter and falls through to test
generation with `err` still set), then the test phase. -/
def processChunk (env : RunEnv) (writeTests : Bool) (lang dir : String)
    (maxRetries : Nat) (i : Nat) (st : LoopState) : LoopState :=
  let rv := attemptLoop (env.reviewAtt i) maxRetries 0 ("", none)
  match rv.2 with
  | some e =>
    if goContains e timeoutMsg then
      { st with timeoutCount := st.timeoutCount + 1,
                warnings := if 3 ≤ st.timeoutCount + 1 then st.warnings + 1 else st.warnings,
                failedChunks := st.failedChunks ++ [⟨i, e⟩] }
    else testPhase env writeTests lang dir maxRetries i { st with timeoutCount := 0 } (some e)
  | none => testPhase env writeTests lang dir maxRetries i st none

/-- The `for i, chunk := range chunks` loop: the interrupt flag is sampled
before dequeuing each chunk and breaks the loop. -/
def loopChunks (env : RunEnv) (writeTests : Bool) (lang dir : String)
    (maxRetries : Nat) : Nat → List String → LoopState → LoopState
  | _, [], st => st
  | i, _ :: rest, st =>
    if env.interrupted i then st
    else loopChunks env writeTests lang dir maxRetries (i + 1) rest
      (processChunk env writeTests lang dir maxRetries i st)

def initState : LoopState := ⟨[], 0, 0, 0, 0, 0, []⟩

/-- `ReviewAndFixLoop` restricted to its chunk loop and accumulated state
(the language-config lookup before the loop and the summary printing /
ledger-file serialization / test-file cleanup after it do not touch the
per-chunk state and are not modelled). -/
def ReviewAndFixLoop (env : RunEnv) (writeTests : Bool) (lang dir : String)
    (maxRetries : Nat) (chunks : List String) : LoopState :=
  loopChunks env writeTests lang dir maxRetries 0 chunks initState

/-! ## Resume mode (`main`, `--resume-failed`)

After decoding the ledger into a list of indices (Go `int`, hence `Int`) and
recomputing `allChunks`, the loop keeps `allChunks[fc.Index]` exactly for
the in-range indices. -/

/-- The loop `for _, fc := range failedChunks { if fc.Index >= 0 && fc.Index < len(allChunks) { ... } }`
with the accumulated `chunks` slice. -/
def resumeGo (allChunks : List String) : List Int → List String → List String
  | [], cs => cs
  | i :: rest, cs =>
    if h : 0 ≤ i ∧ i < (allChunks.length : Int) then
      resumeGo allChunks rest (cs ++ [allChunks.get ⟨i.toNat, by omega⟩])
    else resumeGo allChunks rest cs

/-- The chunk list a resume run processes, given the decoded failed indices
and the freshly recomputed full chunk list. -/
def resumeChunks (failed : List Int) (allChunks : List String) : List String :=
  resumeGo allChunks failed []

/-- How one chunk changes the consecutive-timeout counter and the warning
count, as the amended claim C7 states it: `reviewErr` / `testGenErr` are the
final errors of the review and test-generation retry loops.  A final error
containing the deadline-exceeded substring increments the counter (after a
non-timeout review error has first reset it) and warns whenever the new
value is at least 3; a non-timeout final error resets the counter; a fully
successful chunk resets it only when test writing is enabled and otherwise
leaves it unchanged. -/
def timeoutStepSpec (writeTests : Bool) (reviewErr testGenErr : Option String)
    (tc w : Nat) : Nat × Nat :=
  match reviewErr with
  | some e =>
    if goContains e timeoutMsg then (tc + 1, if 3 ≤ tc + 1 then w + 1 else w)
    else
      match testGenErr with
      | some e2 => if goContains e2 timeoutMsg then (1, w) else (0, w)
      | none => (0, w)
  | none =>
    match testGenErr with
    | some e2 =>
      if goContains e2 timeoutMsg then (tc + 1, if 3 ≤ tc + 1 then w + 1 else w)
      else (0, w)
    | none => if writeTests then (0, w) else (tc, w)

/-! # Lemmas and claim theorems -/

/-! ## Retry controller: claims C1 and C6 -/

/-- Splitting a successor range of exponentially scaled waits. -/
lemma range_pow_shift (b k : Nat) :
    (List.range (k + 1)).map (fun j => b * 2 ^ j) =
      b :: (List.range k).map (fun j => b * 2 * 2 ^ j) := by
  rw [List.range_succ_eq_map, List.map_cons, List.map_map]
  refine congrArg₂ _ (by simp) ?_
  refine List.map_congr_left fun j _ => ?_
  simp [Function.comp, pow_succ]
  ring

/-- One unfolding step of the retry loop. -/
lemma retryLoop_succ {σ : Type} (fn : Nat → σ → Option String × σ)
    (ctxDone : Nat → Bool) (ctxErr : String) (n i b : Nat) (le : Option String)
    (s : σ) :
    retryLoop fn ctxDone ctxErr (n + 1) i b le s =
      match fn i s with
      | (none, s2) => ⟨none, s2, 1, []⟩
      | (some e, s2) =>
        if ctxDone i then ⟨some ctxErr, s2, 1, []⟩
        else
          let r := retryLoop fn ctxDone ctxErr n (i + 1) (b * 2) (some e) s2
          ⟨r.res, r.state, r.attempts + 1, b :: r.waits⟩ := rfl

/-- Behaviour of the retry loop when every attempt fails and the context
never becomes done: the i-th attempt errs with `errF i`. -/
lemma retryLoop_all_fail {σ : Type} (fn : Nat → σ → Option String × σ)
    (ctxErr : String) (errF : Nat → String)
    (hfn : ∀ i s, (fn i s).1 = some (errF i)) :
    ∀ k i b le s,
      (retryLoop fn (fun _ => false) ctxErr (k + 1) i b le s).res = some (errF (i + k)) ∧
      (retryLoop fn (fun _ => false) ctxErr (k + 1) i b le s).attempts = k + 1 ∧
      (retryLoop fn (fun _ => false) ctxErr (k + 1) i b le s).waits =
        (List.range (k + 1)).map (fun j => b * 2 ^ j) := by
  intro k
  induction k with
  | zero =>
    intro i b le s
    rcases hps : fn i s with ⟨e, s2⟩
    have he : e = some (errF i) := by have h := hfn i s; rw [hps] at h; exact h
    subst he
    simp [retryLoop, hps, range_pow_shift]
  | succ k ih =>
    intro i b le s
    rcases hps : fn i s with ⟨e, s2⟩
    have he : e = some (errF i) := by have h := hfn i s; rw [hps] at h; exact h
    subst he
    obtain ⟨h1, h2, h3⟩ := ih (i + 1) (b * 2) (some (errF i)) s2
    rw [retryLoop_succ, hps]
    dsimp only
    simp only [Bool.false_eq_true, if_false]
    refine ⟨?_, ?_, ?_⟩
    · rw [h1, show i + 1 + k = i + (k + 1) from by omega]
    · rw [h2]
    · rw [h3]
      conv_rhs => rw [range_pow_shift]

/-- Claim C1 (amended): a backend call that fails on every attempt, under a
context that never cancels, is invoked exactly `m` times, completes exactly
`m` backoff waits — one after every failed attempt, the final one included,
of exponentially doubling duration — and the last error is returned. -/
theorem claim1_thm (m : Nat) (errF : Nat → String) (ctxErr : String) (hm : 1 ≤ m) :
    (retryWithBackoff (fun _ => false) ctxErr m (fun i (_ : Unit) => (some (errF i), ())) ()).res =
        some (errF (m - 1)) ∧
    (retryWithBackoff (fun _ => false) ctxErr m (fun i (_ : Unit) => (some (errF i), ())) ()).attempts = m ∧
    (retryWithBackoff (fun _ => false) ctxErr m (fun i (_ : Unit) => (some (errF i), ())) ()).waits =
      (List.range m).map (fun j => 2 ^ j) := by
  obtain ⟨k, rfl⟩ : ∃ k, m = k + 1 := ⟨m - 1, by omega⟩
  obtain ⟨h1, h2, h3⟩ :=
    retryLoop_all_fail (fun i (_ : Unit) => (some (errF i), ())) ctxErr errF
      (fun _ _ => rfl) k 0 1 none ()
  refine ⟨?_, h2, ?_⟩
  · simpa using h1
  · rw [retryWithBackoff, h3]
    exact List.map_congr_left fun j _ => by ring

/-- Witness for claim C1's theorem at `m = 3`. -/
theorem claim1_wit :
    1 ≤ 3 ∧
    ((retryWithBackoff (fun _ => false) "c" 3 (fun i (_ : Unit) => (some (toString i), ())) ()).res =
        some (toString (3 - 1)) ∧
     (retryWithBackoff (fun _ => false) "c" 3 (fun i (_ : Unit) => (some (toString i), ())) ()).attempts = 3 ∧
     (retryWithBackoff (fun _ => false) "c" 3 (fun i (_ : Unit) => (some (toString i), ())) ()).waits =
       (List.range 3).map (fun j => 2 ^ j)) :=
  ⟨by decide, claim1_thm 3 (fun i => toString i) "c" (by decide)⟩

/-- Counterexample to claim C1 as stated: for `m = 1` the claim asserts
`m - 1 = 0` backoff waits, but the controller waits after the final failed
attempt too, so one wait completes. -/
theorem claim1_cex :
    (retryWithBackoff (fun _ => false) "ctx" 1
        (fun _ (_ : Unit) => (some "boom", ())) ()).waits.length ≠ 1 - 1 := by
  decide

/-- Behaviour of the retry loop when the context becomes done during the
backoff wait of relative attempt `j` (and the first `j + 1` attempts all
fail): the context error is returned at once. -/
lemma retryLoop_cancel (fn : Nat → Option String) (ctxDone : Nat → Bool)
    (ctxErr : String) :
    ∀ j n i b le, j < n → (∀ d, d ≤ j → (fn (i + d)).isSome) →
      (∀ d, d < j → ctxDone (i + d) = false) → ctxDone (i + j) = true →
      (retryLoop (fun a (_ : Unit) => (fn a, ())) ctxDone ctxErr n i b le ()).res = some ctxErr ∧
      (retryLoop (fun a (_ : Unit) => (fn a, ())) ctxDone ctxErr n i b le ()).attempts = j + 1 ∧
      (retryLoop (fun a (_ : Unit) => (fn a, ())) ctxDone ctxErr n i b le ()).waits.length = j := by
  intro j
  induction j with
  | zero =>
    intro n i b le hn hfail _ hdone
    obtain ⟨n', rfl⟩ : ∃ n', n = n' + 1 := ⟨n - 1, by omega⟩
    obtain ⟨e, he⟩ := Option.isSome_iff_exists.mp (hfail 0 (by omega))
    rw [Nat.add_zero] at he hdone
    simp [retryLoop, he, hdone]
  | succ j ih =>
    intro n i b le hn hfail hlive hdone
    obtain ⟨n', rfl⟩ : ∃ n', n = n' + 1 := ⟨n - 1, by omega⟩
    obtain ⟨e, he⟩ := Option.isSome_iff_exists.mp (hfail 0 (by omega))
    rw [Nat.add_zero] at he
    have hl0 : ctxDone i = false := by have := hlive 0 (by omega); rwa [Nat.add_zero] at this
    obtain ⟨h1, h2, h3⟩ := ih n' (i + 1) (b * 2) (some e)
      (by omega)
      (fun d hd => by have := hfail (d + 1) (by omega); rwa [show i + (d + 1) = i + 1 + d by omega] at this)
      (fun d hd => by have := hlive (d + 1) (by omega); rwa [show i + (d + 1) = i + 1 + d by omega] at this)
      (by have := hdone; rwa [show i + (j + 1) = i + 1 + j by omega] at this)
    simp only [retryLoop, he, hl0, Bool.false_eq_true, if_false]
    exact ⟨h1, by simp [h2], by simp [h3]⟩

/-- Claim C6 (confirmed): if the context becomes done (deadline elapsed or
canceled) during the backoff wait that follows failed attempt `j`, the
controller returns the context's error immediately: the operation is not
invoked again (exactly `j + 1` invocations happened), no further wait
completes, and this holds however many retries remain in the budget. -/
theorem claim6_thm (m j : Nat) (fn : Nat → Option String) (ctxDone : Nat → Bool)
    (ctxErr : String) (hjm : j < m)
    (hfail : ∀ i, i ≤ j → (fn i).isSome)
    (hlive : ∀ i, i < j → ctxDone i = false)
    (hdone : ctxDone j = true) :
    (retryWithBackoff ctxDone ctxErr m (fun a (_ : Unit) => (fn a, ())) ()).res = some ctxErr ∧
    (retryWithBackoff ctxDone ctxErr m (fun a (_ : Unit) => (fn a, ())) ()).attempts = j + 1 ∧
    (retryWithBackoff ctxDone ctxErr m (fun a (_ : Unit) => (fn a, ())) ()).waits.length = j := by
  exact retryLoop_cancel fn ctxDone ctxErr j m 0 1 none hjm
    (fun d hd => by simpa using hfail d hd)
    (fun d hd => by simpa using hlive d hd)
    (by simpa using hdone)

/-- Witness for claim C6's theorem: cancellation during the second backoff
wait of a five-retry budget stops after two attempts. -/
theorem claim6_wit :
    1 < 5 ∧
    ((retryWithBackoff (fun i => decide (1 ≤ i)) "ctx canceled" 5
        (fun a (_ : Unit) => ((fun _ => some "e") a, ())) ()).res = some "ctx canceled" ∧
     (retryWithBackoff (fun i => decide (1 ≤ i)) "ctx canceled" 5
        (fun a (_ : Unit) => ((fun _ => some "e") a, ())) ()).attempts = 1 + 1 ∧
     (retryWithBackoff (fun i => decide (1 ≤ i)) "ctx canceled" 5
        (fun a (_ : Unit) => ((fun _ => some "e") a, ())) ()).waits.length = 1) :=
  ⟨by decide,
   claim6_thm 5 1 (fun _ => some "e") (fun i => decide (1 ≤ i)) "ctx canceled"
     (by decide) (fun i _ => rfl)
     (fun i hi => by simp only [decide_eq_false_iff_not]; omega)
     (by decide)⟩

/-! ## Backend client zero-choice policy: claim C2 -/

/-- With every attempt answered by a zero-choice response and a live
context, the LM Studio review retry loop always ends in the error
`"No response from LLM"`, recorded in `lastErr`. -/
lemma retryLoop_lmstudio_zero (ctxErr : String) :
    ∀ k i b le s,
      ((retryLoop (lmstudioFn (fun _ => .success ⟨[]⟩)) (fun _ => false) ctxErr
          (k + 1) i b le s).res).isSome = true ∧
      (retryLoop (lmstudioFn (fun _ => .success ⟨[]⟩)) (fun _ => false) ctxErr
          (k + 1) i b le s).state.lastErr = some "No response from LLM" := by
  intro k
  induction k with
  | zero =>
    intro i b le s
    simp [retryLoop, lmstudioFn]
  | succ k ih =>
    intro i b le s
    obtain ⟨h1, h2⟩ := ih (i + 1) (b * 2)
      (some "No response from LLM") { s with lastErr := some "No response from LLM" }
    simp only [retryLoop, lmstudioFn, Bool.false_eq_true, if_false]
    exact ⟨h1, h2⟩

/-- Claim C2 (amended): a response with zero choices is a non-error empty
result (`"No response from LLM"`, no error) in the hosted-API review path,
the hosted-API test-generation path and the local-server test-generation
path — but the local-server review path (`lmstudioChat`) classifies it as
an error, retries it, and returns it as a failure once the retry budget
(any `m ≥ 1`) is exhausted. -/
theorem claim2_thm (m : Nat) (ctxErr : String) (hm : 1 ≤ m) :
    ReviewChunkOpenAI (.success ⟨[]⟩) = ("No response from LLM", none) ∧
    GenerateUnitTestsOpenAI (.success ⟨[]⟩) = ("No response from LLM", none) ∧
    lmstudioChatTest (.success ⟨[]⟩) = ("No response from LLM", none) ∧
    (lmstudioChat (fun _ => .success ⟨[]⟩) (fun _ => false) ctxErr m).2 =
      some "No response from LLM" := by
  refine ⟨rfl, rfl, rfl, ?_⟩
  obtain ⟨k, rfl⟩ : ∃ k, m = k + 1 := ⟨m - 1, by omega⟩
  obtain ⟨h1, h2⟩ := retryLoop_lmstudio_zero ctxErr k 0 1 none ⟨none, ""⟩
  obtain ⟨e, he⟩ := Option.isSome_iff_exists.mp h1
  unfold lmstudioChat retryWithBackoff
  dsimp only
  rw [he]
  simpa using h2

/-- Witness for claim C2's theorem at `m = 3`. -/
theorem claim2_wit :
    1 ≤ 3 ∧
    (ReviewChunkOpenAI (.success ⟨[]⟩) = ("No response from LLM", none) ∧
     GenerateUnitTestsOpenAI (.success ⟨[]⟩) = ("No response from LLM", none) ∧
     lmstudioChatTest (.success ⟨[]⟩) = ("No response from LLM", none) ∧
     (lmstudioChat (fun _ => .success ⟨[]⟩) (fun _ => false) "ctx" 3).2 =
       some "No response from LLM") :=
  ⟨by decide, claim2_thm 3 "ctx" (by decide)⟩

/-- Counterexample to claim C2 as stated: the local-server review variant,
given zero-choice responses on all three attempts, returns an error rather
than an empty success. -/
theorem claim2_cex :
    lmstudioChat (fun _ => .success ⟨[]⟩) (fun _ => false) "context canceled" 3 =
      ("", some "No response from LLM") := by
  decide

/-! ## Chunker: claims C4 and C5 -/

lemma splitLines_ne_nil (s : List Char) : splitLines s ≠ [] := by
  induction s with
  | nil => simp [splitLines]
  | cons c cs ih =>
    simp only [splitLines]
    split
    · simp
    · split
      · simp
      · simp

lemma joinNl_cons_of_ne_nil (l : List Char) {ls : List (List Char)} (h : ls ≠ []) :
    joinNl (l :: ls) = l ++ newline :: joinNl ls := by
  cases ls with
  | nil => exact absurd rfl h
  | cons a as => rfl

lemma joinNl_cons_head (c : Char) (l : List Char) (ls : List (List Char)) :
    joinNl ((c :: l) :: ls) = c :: joinNl (l :: ls) := by
  cases ls with
  | nil => rfl
  | cons a as => simp [joinNl]

lemma joinNl_append {xs ys : List (List Char)} (hxs : xs ≠ []) (hys : ys ≠ []) :
    joinNl (xs ++ ys) = joinNl xs ++ newline :: joinNl ys := by
  induction xs with
  | nil => exact absurd rfl hxs
  | cons x xs ih =>
    cases xs with
    | nil => simpa [joinNl] using joinNl_cons_of_ne_nil x hys
    | cons x2 xs2 =>
      have h2 : (x2 :: xs2) ++ ys ≠ [] := by simp
      rw [List.cons_append, joinNl_cons_of_ne_nil x h2, ih (by simp),
        joinNl_cons_of_ne_nil x (by simp)]
      simp

/-- Round trip of the split: joining the split lines with newlines gives the
original character list back. -/
lemma joinNl_splitLines (s : List Char) : joinNl (splitLines s) = s := by
  induction s with
  | nil => rfl
  | cons c cs ih =>
    simp only [splitLines]
    by_cases hc : c = newline
    · rw [if_pos hc, joinNl_cons_of_ne_nil [] (splitLines_ne_nil cs), hc]
      simp [ih]
    · rw [if_neg hc]
      rcases hsp : splitLines cs with _ | ⟨l, ls⟩
      · exact absurd hsp (splitLines_ne_nil cs)
      · rw [joinNl_cons_head, ← hsp, ih]

lemma flatten_ne_nil_of_head {g : List (List Char)} {gs : List (List (List Char))}
    (hg : g ≠ []) : (g :: gs).flatten ≠ [] := by
  cases g with
  | nil => exact absurd rfl hg
  | cons a as => simp

/-- Joining the per-group joins equals joining the flattened groups, provided
every group is nonempty. -/
lemma joinNl_map_joinNl (parts : List (List (List Char)))
    (h : ∀ g ∈ parts, g ≠ []) :
    joinNl (parts.map joinNl) = joinNl parts.flatten := by
  induction parts with
  | nil => rfl
  | cons g rest ih =>
    cases rest with
    | nil => simp [joinNl]
    | cons r rs =>
      have hg : g ≠ [] := h g (by simp)
      have hr : r ≠ [] := h r (by simp)
      have hflat : (r :: rs).flatten ≠ [] := flatten_ne_nil_of_head hr
      rw [List.map_cons, joinNl_cons_of_ne_nil (joinNl g) (by simp),
        ih (fun g hmem => h g (by simp [hmem]))]
      conv_rhs => rw [List.flatten_cons]
      rw [joinNl_append hg hflat]

lemma chunkLoop_flatten {α : Type} {k : Nat} (hk : 1 ≤ k) :
    ∀ fuel (l : List α), l.length ≤ fuel → (chunkLoop k fuel l).flatten = l := by
  intro fuel
  induction fuel with
  | zero =>
    intro l hl
    have : l = [] := List.length_eq_zero.mp (by omega)
    subst this
    rfl
  | succ fuel ih =>
    intro l hl
    cases l with
    | nil => rfl
    | cons x xs =>
      have hlen : ((x :: xs).drop k).length ≤ fuel := by
        rw [List.length_drop]
        simp only [List.length_cons] at hl ⊢
        omega
      rw [chunkLoop, List.flatten_cons, ih _ hlen, List.take_append_drop]

lemma chunkLoop_mem {α : Type} {k : Nat} (hk : 1 ≤ k) :
    ∀ fuel (l : List α) g, g ∈ chunkLoop k fuel l → g ≠ [] ∧ g.length ≤ k := by
  intro fuel
  induction fuel with
  | zero =>
    intro l g hmem
    cases l with
    | nil => simp [chunkLoop] at hmem
    | cons x xs => simp [chunkLoop] at hmem
  | succ fuel ih =>
    intro l g hmem
    cases l with
    | nil => simp [chunkLoop] at hmem
    | cons x xs =>
      rw [chunkLoop] at hmem
      rcases List.mem_cons.mp hmem with h | h
      · subst h
        constructor
        · obtain ⟨k2, rfl⟩ : ∃ k2, k = k2 + 1 := ⟨k - 1, by omega⟩
          simp [List.take]
        · simp
      · exact ih _ g h

lemma div_ceil_step {n k : Nat} (hk : 1 ≤ k) (hn : 1 ≤ n) :
    (n + k - 1) / k = (n - k + k - 1) / k + 1 := by
  have hk0 : 0 < k := hk
  rcases le_or_lt n k with h | h
  · have h1 : n - k = 0 := by omega
    have h2 : n + k - 1 = (n - 1) + k := by omega
    rw [h1, h2, Nat.add_div_right _ hk0, Nat.div_eq_of_lt (by omega),
      Nat.div_eq_of_lt (by omega)]
  · have h1 : n - k + k - 1 = (n - k - 1) + k := by omega
    have h2 : n + k - 1 = (n - 1) + k := by omega
    have h3 : n - 1 = (n - k - 1) + k := by omega
    rw [h1, h2, Nat.add_div_right _ hk0, h3, Nat.add_div_right _ hk0]

lemma chunkLoop_length {α : Type} {k : Nat} (hk : 1 ≤ k) :
    ∀ fuel (l : List α), l.length ≤ fuel →
      (chunkLoop k fuel l).length = (l.length + k - 1) / k := by
  intro fuel
  induction fuel with
  | zero =>
    intro l hl
    have : l = [] := List.length_eq_zero.mp (by omega)
    subst this
    simp [chunkLoop, Nat.div_eq_of_lt (show k - 1 < k by omega)]
  | succ fuel ih =>
    intro l hl
    cases l with
    | nil => simp [chunkLoop, Nat.div_eq_of_lt (show k - 1 < k by omega)]
    | cons x xs =>
      have hlen : ((x :: xs).drop k).length ≤ fuel := by
        rw [List.length_drop]
        simp only [List.length_cons] at hl ⊢
        omega
      rw [chunkLoop]
      simp only [List.length_cons]
      rw [ih _ hlen, List.length_drop]
      simp only [List.length_cons]
      conv_rhs => rw [div_ceil_step hk (show (1 : Nat) ≤ xs.length + 1 by omega)]

lemma splitLines_no_newline (s : List Char) : ∀ l ∈ splitLines s, newline ∉ l := by
  induction s with
  | nil =>
    intro l hl
    simp [splitLines] at hl
    simp [hl]
  | cons c cs ih =>
    intro l hl
    simp only [splitLines] at hl
    by_cases hc : c = newline
    · rw [if_pos hc] at hl
      rcases List.mem_cons.mp hl with h | h
      · simp [h]
      · exact ih l h
    · rw [if_neg hc] at hl
      rcases hsp : splitLines cs with _ | ⟨m, ms⟩
      · exact absurd hsp (splitLines_ne_nil cs)
      · rw [hsp] at hl
        rcases List.mem_cons.mp hl with h | h
        · subst h
          intro hmem
          rcases List.mem_cons.mp hmem with h2 | h2
          · exact hc h2.symm
          · exact ih m (by simp [hsp]) h2
        · exact ih l (by simp [hsp, h])

lemma splitLines_of_no_newline {l : List Char} (h : newline ∉ l) :
    splitLines l = [l] := by
  induction l with
  | nil => rfl
  | cons c cs ih =>
    have hc : ¬c = newline := fun hh => h (by simp [hh])
    rw [splitLines, if_neg hc, ih (fun hm => h (by simp [hm]))]

lemma splitLines_append_newline {g rest : List Char} (h : newline ∉ g) :
    splitLines (g ++ newline :: rest) = g :: splitLines rest := by
  induction g with
  | nil => simp [splitLines]
  | cons c g2 ih =>
    have hc : ¬c = newline := fun hh => h (by simp [hh])
    rw [List.cons_append, splitLines, if_neg hc, ih (fun hm => h (by simp [hm]))]

/-- Round trip of the join: splitting a join of newline-free pieces gives the
pieces back. -/
lemma splitLines_joinNl (gs : List (List Char)) (hne : gs ≠ [])
    (hfree : ∀ g ∈ gs, newline ∉ g) : splitLines (joinNl gs) = gs := by
  induction gs with
  | nil => exact absurd rfl hne
  | cons g rest ih =>
    cases rest with
    | nil => exact splitLines_of_no_newline (hfree g (by simp))
    | cons r rs =>
      rw [joinNl_cons_of_ne_nil g (by simp),
        splitLines_append_newline (hfree g (by simp)),
        ih (by simp) (fun x hx => hfree x (by simp [hx]))]

lemma getLastD_mem {α : Type} {l : List α} (h : l ≠ []) (d : α) :
    l.getLastD d ∈ l := by
  rw [List.getLastD_eq_getLast?, List.getLast?_eq_getLast l h]
  exact List.getLast_mem h

/-- Counterexample to claim C4 as stated: the claim asserts that an empty
body yields zero chunks, but the chunker produces one chunk (the empty
chunk), because splitting the empty string on newlines yields one empty
line. -/
theorem claim4_cex : ChunkDiff "" 1 ≠ [] := by decide

/-- Claim C4 (amended): for every chunk size `k ≥ 1`, any body of at most
`k` lines — the empty body included, which counts as one empty line —
yields exactly one chunk, equal to the whole body, from both `ChunkDiff`
and `GetFileChunks`. -/
theorem claim4_thm (k : Nat) (s : String) (_hk : 1 ≤ k) (hs : lineCount s ≤ k) :
    ChunkDiff s k = [s] ∧ GetFileChunks s k = [s] := by
  have hmain : ChunkDiff s k = [s] := by
    rw [ChunkDiff]
    rcases hsp : splitLines s.data with _ | ⟨x, xs⟩
    · exact absurd hsp (splitLines_ne_nil s.data)
    · have hlen : (x :: xs).length ≤ k := by
        rw [← hsp]
        exact hs
      have hdrop : (x :: xs).drop k = [] := List.drop_eq_nil_of_le hlen
      rw [List.length_cons, chunkLoop, List.take_of_length_le hlen, hdrop]
      have hfuel : xs.length ≤ k := by simp at hlen; omega
      cases xs with
      | nil =>
        simp only [chunkLoop, List.map_cons, List.map_nil]
        rw [← hsp, joinNl_splitLines]
      | cons y ys =>
        simp only [chunkLoop, List.map_cons, List.map_nil]
        rw [← hsp, joinNl_splitLines]
  exact ⟨hmain, hmain⟩

/-- Witness for claim C4's theorem: a two-line body with chunk size 5. -/
theorem claim4_wit :
    1 ≤ 5 ∧ lineCount "a\nb" ≤ 5 ∧
    (ChunkDiff "a\nb" 5 = ["a\nb"] ∧ GetFileChunks "a\nb" 5 = ["a\nb"]) :=
  ⟨by decide, by decide, claim4_thm 5 "a\nb" (by decide) (by decide)⟩

/-- Claim C5 (confirmed): for every chunk size `k ≥ 1` and every body,
joining the chunk sequence with newlines reproduces the body exactly; the
number of chunks is the ceiling of the body's line count (the length of its
newline split) divided by `k`; the final chunk has between 1 and `k` lines;
and `GetFileChunks` produces the same chunks as `ChunkDiff`. -/
theorem claim5_thm (k : Nat) (s : String) (hk : 1 ≤ k) :
    joinChunks (ChunkDiff s k) = s ∧
    (ChunkDiff s k).length = (lineCount s + k - 1) / k ∧
    (1 ≤ lineCount ((ChunkDiff s k).getLastD "") ∧
      lineCount ((ChunkDiff s k).getLastD "") ≤ k) ∧
    GetFileChunks s k = ChunkDiff s k := by
  have hfuel : (splitLines s.data).length ≤ (splitLines s.data).length := le_refl _
  have hne : splitLines s.data ≠ [] := splitLines_ne_nil s.data
  have hgrp : ∀ g ∈ chunkLoop k (splitLines s.data).length (splitLines s.data),
      g ≠ [] ∧ g.length ≤ k := fun g hg => chunkLoop_mem hk _ _ g hg
  have hflat : (chunkLoop k (splitLines s.data).length (splitLines s.data)).flatten
      = splitLines s.data := chunkLoop_flatten hk _ _ hfuel
  -- each chunk string has as many lines as its group has elements
  have hchunk_lines : ∀ g ∈ chunkLoop k (splitLines s.data).length (splitLines s.data),
      lineCount (String.mk (joinNl g)) = g.length := by
    intro g hg
    have hsub : ∀ x ∈ g, x ∈ splitLines s.data := by
      intro x hx
      rw [← hflat]
      exact List.mem_flatten.mpr ⟨g, hg, hx⟩
    have hfree : ∀ x ∈ g, newline ∉ x :=
      fun x hx => splitLines_no_newline s.data x (hsub x hx)
    rw [lineCount]
    rw [show (String.mk (joinNl g)).data = joinNl g from rfl]
    rw [splitLines_joinNl g (hgrp g hg).1 hfree]
  have hround : joinChunks (ChunkDiff s k) = s := by
    rw [ChunkDiff, joinChunks, List.map_map]
    rw [show (String.data ∘ fun c => String.mk (joinNl c)) = fun c => joinNl c from rfl]
    rw [joinNl_map_joinNl _ (fun g hg => (hgrp g hg).1), hflat, joinNl_splitLines]
  refine ⟨hround, ?_, ?_, rfl⟩
  · rw [ChunkDiff, List.length_map, chunkLoop_length hk _ _ hfuel, lineCount]
  · have hne2 : ChunkDiff s k ≠ [] := by
      rw [ChunkDiff]
      rcases hsp : splitLines s.data with _ | ⟨x, xs⟩
      · exact absurd hsp hne
      · rw [List.length_cons, chunkLoop]
        simp
    have hmem := getLastD_mem hne2 ""
    rw [ChunkDiff] at hmem
    obtain ⟨g, hg, hgeq⟩ := List.mem_map.mp hmem
    have heq : (ChunkDiff s k).getLastD "" = String.mk (joinNl g) := by
      rw [ChunkDiff, hgeq]
    rw [heq, hchunk_lines g hg]
    have := hgrp g hg
    constructor
    · have : g ≠ [] := this.1
      cases g with
      | nil => exact absurd rfl this
      | cons a as => simp
    · exact this.2

/-! ## Test artifact manager: claims C8 and C10 -/

lemma isPrefixOf_length_le {p l : List Char} (h : p.isPrefixOf l = true) :
    p.length ≤ l.length := by
  induction p generalizing l with
  | nil => simp
  | cons a as ih =>
    cases l with
    | nil => simp [List.isPrefixOf] at h
    | cons b bs =>
      simp only [List.isPrefixOf, Bool.and_eq_true] at h
      simpa using ih h.2

lemma strIndex_bound {pat : List Char} :
    ∀ {s : List Char} {i : Nat}, strIndex pat s = some i → i + pat.length ≤ s.length := by
  intro s
  induction s with
  | nil =>
    intro i h
    rw [strIndex] at h
    by_cases hp : pat = []
    · rw [if_pos hp] at h
      cases h
      simp [hp]
    · rw [if_neg hp] at h
      cases h
  | cons c cs ih =>
    intro i h
    rw [strIndex] at h
    by_cases hp : pat.isPrefixOf (c :: cs) = true
    · rw [if_pos hp] at h
      cases h
      simpa using isPrefixOf_length_le hp
    · rw [if_neg hp] at h
      obtain ⟨j, hj, rfl⟩ := Option.map_eq_some'.mp h
      have := ih hj
      simp only [List.length_cons]
      omega

lemma strIndex_fence_nil : strIndex fence [] = none := by decide

lemma fence_length : fence.length = 3 := rfl

/-- A text in which the scan finds no complete fenced block makes the
writing loop exit immediately with no file written and no error. -/
lemma parseLoop_no_block {s : List Char} (h : hasCodeBlock s = false)
    (lang dir : String) (idx : Nat) (now : Nat → Nat) (we : Nat → Option String) :
    ∀ fuel b files, parseLoop lang dir idx now we fuel b s files = (files, none) := by
  intro fuel b files
  cases fuel with
  | zero => rfl
  | succ f =>
    rcases h1 : strIndex fence s with _ | i1
    · simp [parseLoop, h1]
    · rcases h2 : strIndex fence (s.drop (i1 + 3)) with _ | i2
      · simp [parseLoop, h1, h2]
      · exfalso
        simp [hasCodeBlock, h1, h2] at h

/-- The block scan does not depend on the fuel, as long as the fuel is at
least the text length. -/
lemma extractBlocks_fuel :
    ∀ f1 f2 (s : List Char), s.length ≤ f1 → s.length ≤ f2 →
      extractBlocks f1 s = extractBlocks f2 s := by
  intro f1
  induction f1 with
  | zero =>
    intro f2 s h1 h2
    have : s = [] := List.length_eq_zero.mp (by omega)
    subst this
    cases f2 with
    | zero => rfl
    | succ f2 => simp [extractBlocks, strIndex_fence_nil]
  | succ f1 ih =>
    intro f2 s h1 h2
    cases f2 with
    | zero =>
      have : s = [] := List.length_eq_zero.mp (by omega)
      subst this
      simp [extractBlocks, strIndex_fence_nil]
    | succ f2 =>
      rcases h1s : strIndex fence s with _ | i1
      · simp [extractBlocks, h1s]
      · rcases h2s : strIndex fence (s.drop (i1 + 3)) with _ | i2
        · simp [extractBlocks, h1s, h2s]
        · simp only [extractBlocks, h1s, h2s]
          congr 1
          have hb1 : i1 + 3 ≤ s.length := by
            have := strIndex_bound h1s
            rwa [fence_length] at this
          have hb2 : i2 + 3 ≤ s.length - (i1 + 3) := by
            have := strIndex_bound h2s
            rw [fence_length, List.length_drop] at this
            omega
          apply ih
          · rw [List.length_drop, List.length_drop]
            omega
          · rw [List.length_drop, List.length_drop]
            omega

/-- Main behaviour lemma for `parseLoop`: for a supported language, if the
first `n` writes succeed, the write of block `n` fails with `e`, and the
text holds more than `n` blocks, the loop stops at block `n` and returns
the `n` file names already written together with the error. -/
lemma parseLoop_spec (lang dir : String) (idx : Nat) (now : Nat → Nat)
    (we : Nat → Option String) (e : String) (hlang : lang = "go" ∨ lang = "php") :
    ∀ n fuel (s : List Char) b acc, s.length ≤ fuel →
      (∀ j, j < n → we (b + j) = none) → we (b + n) = some e →
      n < (extractBlocks s.length s).length →
      parseLoop lang dir idx now we fuel b s acc =
        (acc ++ (List.range n).map
            (fun j => (fileNameFor lang dir idx (b + j) (now (b + j))).getD ""),
          some e) := by
  intro n
  induction n with
  | zero =>
    intro fuel s b acc hfuel hnone hfail hcount
    obtain ⟨L, hL⟩ : ∃ L, s.length = L + 1 := by
      cases hsl : s.length with
      | zero =>
        rw [hsl] at hcount
        simp [extractBlocks] at hcount
      | succ L => exact ⟨L, rfl⟩
    rw [hL] at hcount
    rcases h1 : strIndex fence s with _ | i1
    · simp [extractBlocks, h1] at hcount
    · rcases h2 : strIndex fence (s.drop (i1 + 3)) with _ | i2
      · simp [extractBlocks, h1, h2] at hcount
      · obtain ⟨F, rfl⟩ : ∃ F, fuel = F + 1 := ⟨fuel - 1, by omega⟩
        rcases hfn : fileNameFor lang dir idx b (now b) with _ | fname
        · exfalso
          rcases hlang with rfl | rfl <;> simp [fileNameFor] at hfn
        · have hwb : we b = some e := by
            have := hfail
            rwa [Nat.add_zero] at this
          simp [parseLoop, h1, h2, hfn, hwb]
  | succ n ih =>
    intro fuel s b acc hfuel hnone hfail hcount
    obtain ⟨L, hL⟩ : ∃ L, s.length = L + 1 := by
      cases hsl : s.length with
      | zero =>
        rw [hsl] at hcount
        simp [extractBlocks] at hcount
      | succ L => exact ⟨L, rfl⟩
    rw [hL] at hcount
    rcases h1 : strIndex fence s with _ | i1
    · simp [extractBlocks, h1] at hcount
    · rcases h2 : strIndex fence (s.drop (i1 + 3)) with _ | i2
      · simp [extractBlocks, h1, h2] at hcount
      · obtain ⟨F, rfl⟩ : ∃ F, fuel = F + 1 := ⟨fuel - 1, by omega⟩
        rcases hfn : fileNameFor lang dir idx b (now b) with _ | fname
        · exfalso
          rcases hlang with rfl | rfl <;> simp [fileNameFor] at hfn
        · have hwb : we b = none := by
            have := hnone 0 (by omega)
            rwa [Nat.add_zero] at this
          have hb1 : i1 + 3 ≤ s.length := by
            have := strIndex_bound h1
            rwa [fence_length] at this
          have hb2 : i2 + 3 ≤ s.length - (i1 + 3) := by
            have := strIndex_bound h2
            rw [fence_length, List.length_drop] at this
            omega
          have hstep := ih F ((s.drop (i1 + 3)).drop (i2 + 3)) (b + 1) (acc ++ [fname])
            (by rw [List.length_drop, List.length_drop]; omega)
            (fun j hj => by
              have := hnone (j + 1) (by omega)
              rwa [show b + (j + 1) = b + 1 + j from by omega] at this)
            (by
              have := hfail
              rwa [show b + (n + 1) = b + 1 + n from by omega] at this)
            (by
              have hlen : ((s.drop (i1 + 3)).drop (i2 + 3)).length ≤ L := by
                rw [List.length_drop, List.length_drop]
                omega
              rw [extractBlocks_fuel _ L _ (le_refl _) hlen]
              simp only [extractBlocks, h1, h2, List.length_cons] at hcount
              omega)
          have hlist : (List.range (n + 1)).map
                (fun j => (fileNameFor lang dir idx (b + j) (now (b + j))).getD "") =
              fname :: (List.range n).map
                (fun j => (fileNameFor lang dir idx (b + 1 + j) (now (b + 1 + j))).getD "") := by
            rw [List.range_succ_eq_map, List.map_cons, List.map_map]
            congr 1
            · rw [Nat.add_zero, hfn]
              rfl
            · refine List.map_congr_left fun j _ => ?_
              simp only [Function.comp]
              rw [show b + (j + 1) = b + 1 + j from by omega]
          simp only [parseLoop, h1, h2, hfn, hwb]
          rw [hstep, hlist, List.append_assoc, List.singleton_append]

/-- Claim C8 (confirmed): on model output in which the scan finds no
complete fenced code block, `ParseAndWriteTests` writes no file and fails
with the "no code blocks found" error, for every language and directory. -/
theorem claim8_thm (testGen lang dir : String) (idx : Nat) (now : Nat → Nat)
    (we : Nat → Option String) (h : hasCodeBlock testGen.data = false) :
    ParseAndWriteTests testGen lang dir idx now we =
      ([], some "no code blocks found in LLM test output") := by
  rw [ParseAndWriteTests, parseLoop_no_block h]
  simp

/-- Witness for claim C8's theorem. -/
theorem claim8_wit :
    hasCodeBlock "nothing to extract".data = false ∧
    ParseAndWriteTests "nothing to extract" "go" "out" 4 (fun _ => 5) (fun _ => none) =
      ([], some "no code blocks found in LLM test output") :=
  ⟨by decide,
   claim8_thm "nothing to extract" "go" "out" 4 (fun _ => 5) (fun _ => none) (by decide)⟩

/-- Claim C10 (confirmed): if the write of the `n`-th extracted block fails
(first conjunct), `ParseAndWriteTests` stops and returns the error together
with the names of the `n` files already written — which are not removed, so
artifact writing is not atomic on error; and if the language has no
registered naming convention, the first block reached fails with the
"not supported" error and the zero files written so far (second conjunct). -/
theorem claim10_thm (testGen lang dir : String) (idx : Nat) (now : Nat → Nat)
    (we : Nat → Option String) (n : Nat) (e : String) :
    ((lang = "go" ∨ lang = "php") → (∀ j, j < n → we j = none) → we n = some e →
      n < (extractBlocksOf testGen).length →
      ParseAndWriteTests testGen lang dir idx now we =
        ((List.range n).map (fun j => (fileNameFor lang dir idx j (now j)).getD ""),
          some e)) ∧
    (lang ≠ "go" → lang ≠ "php" → hasCodeBlock testGen.data = true →
      ParseAndWriteTests testGen lang dir idx now we =
        ([], some ("test writing not supported for language: " ++ lang))) := by
  constructor
  · intro hlang hnone hfail hcount
    have hspec := parseLoop_spec lang dir idx now we e hlang n testGen.data.length
      testGen.data 0 [] (le_refl _)
      (fun j hj => by rw [Nat.zero_add]; exact hnone j hj)
      (by rw [Nat.zero_add]; exact hfail)
      hcount
    rw [ParseAndWriteTests, hspec]
    simp only [List.nil_append]
    congr 1
    exact List.map_congr_left fun j _ => by rw [Nat.zero_add]
  · intro hgo hphp hblock
    rcases h1 : strIndex fence testGen.data with _ | i1
    · simp [hasCodeBlock, h1] at hblock
    · rcases h2 : strIndex fence (testGen.data.drop (i1 + 3)) with _ | i2
      · simp [hasCodeBlock, h1, h2] at hblock
      · have hb1 : i1 + 3 ≤ testGen.data.length := by
          have := strIndex_bound h1
          rwa [fence_length] at this
        obtain ⟨L, hL⟩ : ∃ L, testGen.data.length = L + 1 := ⟨testGen.data.length - 1, by omega⟩
        have hfn : fileNameFor lang dir idx 0 (now 0) = none := by
          simp [fileNameFor, hgo, hphp]
        rw [ParseAndWriteTests, hL]
        simp [parseLoop, h1, h2, hfn]

/-- Witness for claim C10's theorem: a write failure at the second block of
a two-block output keeps the first written file, and an unregistered
language fails on reaching the first block with zero files. -/
theorem claim10_wit :
    ParseAndWriteTests "x```a```y```b```" "go" "d" 0 (fun _ => 9)
        (fun n => if n = 1 then some "disk full" else none) =
      (["d/llm_generated_test_0_0_9.go"], some "disk full") ∧
    ParseAndWriteTests "x```a```" "py" "d" 0 (fun _ => 9) (fun _ => none) =
      ([], some "test writing not supported for language: py") :=
  ⟨((claim10_thm "x```a```y```b```" "go" "d" 0 (fun _ => 9)
      (fun n => if n = 1 then some "disk full" else none) 1 "disk full").1
      (Or.inl rfl) (by decide) (by decide) (by decide)).trans (by decide),
   (claim10_thm "x```a```" "py" "d" 0 (fun _ => 9) (fun _ => none) 0 "unused").2
     (by decide) (by decide) (by decide)⟩

/-- Witness for claim C5's theorem: a three-line body with chunk size 2. -/
theorem claim5_wit :
    1 ≤ 2 ∧
    (joinChunks (ChunkDiff "a\nb\nc" 2) = "a\nb\nc" ∧
     (ChunkDiff "a\nb\nc" 2).length = (lineCount "a\nb\nc" + 2 - 1) / 2 ∧
     (1 ≤ lineCount ((ChunkDiff "a\nb\nc" 2).getLastD "") ∧
       lineCount ((ChunkDiff "a\nb\nc" 2).getLastD "") ≤ 2) ∧
     GetFileChunks "a\nb\nc" 2 = ChunkDiff "a\nb\nc" 2) :=
  ⟨by decide, claim5_thm 2 "a\nb\nc" (by decide)⟩

/-! ## Orchestrator failure ledger and timeout counter: claims C3 and C7 -/

/-- The test phase never touches the failure ledger. -/
lemma testPhase_failedChunks (env : RunEnv) (writeTests : Bool) (lang dir : String)
    (maxRetries i : Nat) (st : LoopState) (prevErr : Option String) :
    (testPhase env writeTests lang dir maxRetries i st prevErr).failedChunks =
      st.failedChunks := by
  unfold testPhase
  dsimp only
  split
  · split <;> rfl
  · split
    · split
      · rfl
      · split <;> rfl
    · rfl

/-- Claim C3 (amended): processing a chunk appends a failed-chunk record
`{index, error}` exactly when the chunk's review retries end in an error
whose text contains "context deadline exceeded"; a review failure with any
other error text, and a test-generation failure of any kind, appends
nothing to the ledger. -/
theorem claim3_thm (env : RunEnv) (writeTests : Bool) (lang dir : String)
    (maxRetries i : Nat) (st : LoopState) :
    (processChunk env writeTests lang dir maxRetries i st).failedChunks =
      st.failedChunks ++
        (match (attemptLoop (env.reviewAtt i) maxRetries 0 ("", none)).2 with
         | some e => if goContains e timeoutMsg then [⟨i, e⟩] else []
         | none => []) := by
  unfold processChunk
  dsimp only
  rcases h : (attemptLoop (env.reviewAtt i) maxRetries 0 ("", none)).2 with _ | e
  · simp [h, testPhase_failedChunks]
  · by_cases hg : goContains e timeoutMsg
    · simp [h, hg]
    · simp [h, hg, testPhase_failedChunks]

/-- Counterexample to claim C3 as stated: a chunk whose review exhausts its
single retry with the non-timeout error "boom" leaves the failure ledger
empty — no record is appended for non-timeout review failures. -/
theorem claim3_cex :
    (ReviewAndFixLoop
        ⟨fun _ _ => ("", some "boom"), fun _ _ => ("t", none), fun _ => false,
         fun _ _ => 0, fun _ _ => none, fun _ => none⟩
        false "go" "." 1 ["c"]).failedChunks = [] := by
  decide

/-- The counter and warning outcome of the test phase. -/
lemma testPhase_counters (env : RunEnv) (writeTests : Bool) (lang dir : String)
    (maxRetries i : Nat) (st : LoopState) (prevErr : Option String) :
    ((testPhase env writeTests lang dir maxRetries i st prevErr).timeoutCount,
     (testPhase env writeTests lang dir maxRetries i st prevErr).warnings) =
      match (attemptLoop (env.testAtt i) maxRetries 0 ("", prevErr)).2 with
      | some e2 =>
        if goContains e2 timeoutMsg then
          (st.timeoutCount + 1,
            if 3 ≤ st.timeoutCount + 1 then st.warnings + 1 else st.warnings)
        else (0, st.warnings)
      | none =>
        if writeTests then (0, st.warnings) else (st.timeoutCount, st.warnings) := by
  unfold testPhase
  dsimp only
  rcases h : (attemptLoop (env.testAtt i) maxRetries 0 ("", prevErr)).2 with _ | e2
  · simp only [h]
    split
    · split
      · rfl
      · split <;> rfl
    · rfl
  · simp only [h]
    split <;> rfl

/-- Claim C7 (amended): the consecutive-timeout counter and warning count
evolve per chunk exactly as `timeoutStepSpec` describes: incremented (with a
warning whenever the new value reaches 3 or more) by a review or
test-generation final error containing "context deadline exceeded", reset
by a non-timeout final error, and reset by a fully successful chunk only
when test writing is enabled — otherwise a successful chunk leaves the
counter unchanged. -/
theorem claim7_thm (env : RunEnv) (writeTests : Bool) (lang dir : String)
    (maxRetries i : Nat) (st : LoopState) :
    ((processChunk env writeTests lang dir maxRetries i st).timeoutCount,
     (processChunk env writeTests lang dir maxRetries i st).warnings) =
      timeoutStepSpec writeTests
        (attemptLoop (env.reviewAtt i) maxRetries 0 ("", none)).2
        (attemptLoop (env.testAtt i) maxRetries 0
          ("", (attemptLoop (env.reviewAtt i) maxRetries 0 ("", none)).2)).2
        st.timeoutCount st.warnings := by
  unfold processChunk timeoutStepSpec
  dsimp only
  rcases h : (attemptLoop (env.reviewAtt i) maxRetries 0 ("", none)).2 with _ | e
  · simp only [h]
    rw [testPhase_counters]
  · simp only [h]
    by_cases hg : goContains e timeoutMsg
    · simp [hg]
    · simp only [hg, Bool.false_eq_true, if_false]
      rw [testPhase_counters]
      rcases hte : (attemptLoop (env.testAtt i) maxRetries 0 ("", some e)).2 with _ | e2
      · cases writeTests <;> simp
      · by_cases hg2 : goContains e2 timeoutMsg
        · simp [hg2]
        · simp [hg2]

/-- Counterexample to claim C7 as stated: with test writing disabled, a
chunk that times out (counter 1) followed by a fully successful chunk
leaves the counter at 1 — a successful chunk does not reset it. -/
theorem claim7_cex :
    (ReviewAndFixLoop
        ⟨fun i _ => if i = 0 then ("", some "context deadline exceeded") else ("ok", none),
         fun _ _ => ("t", none), fun _ => false, fun _ _ => 0, fun _ _ => none,
         fun _ => none⟩
        false "go" "." 1 ["a", "b"]).timeoutCount ≠ 0 := by
  decide

/-! ## Resume mode: claim C9 -/

lemma resumeGo_spec (allChunks : List String) :
    ∀ failed cs, resumeGo allChunks failed cs =
      cs ++ (failed.filter
          (fun i => decide (0 ≤ i) && decide (i < (allChunks.length : Int)))).map
        (fun i => allChunks.getD i.toNat "") := by
  intro failed
  induction failed with
  | nil => intro cs; simp [resumeGo]
  | cons i rest ih =>
    intro cs
    rw [resumeGo]
    by_cases h : 0 ≤ i ∧ i < (allChunks.length : Int)
    · rw [dif_pos h, ih, List.filter_cons_of_pos (by simp [h.1, h.2]), List.map_cons]
      have hn : i.toNat < allChunks.length := by omega
      rw [List.getD_eq_getElem allChunks "" hn, List.append_assoc, List.singleton_append,
        List.get_eq_getElem]
    · rw [dif_neg h, ih, List.filter_cons_of_neg]
      simp only [Bool.and_eq_true, decide_eq_true_eq]
      exact h

/-- Claim C9 (confirmed): in resume mode the processed chunk list consists
exactly of the chunks at the in-range recorded indices, in ledger order:
every record whose index is negative or not less than the number of
recomputed chunks is skipped without error, and indexing stays in bounds. -/
theorem claim9_thm (failed : List Int) (allChunks : List String) :
    resumeChunks failed allChunks =
      (failed.filter
          (fun i => decide (0 ≤ i) && decide (i < (allChunks.length : Int)))).map
        (fun i => allChunks.getD i.toNat "") := by
  rw [resumeChunks, resumeGo_spec]
  simp

end Reviewer
